import Mathlib

/-!
Verification of the Spark SQL string-function kernel
(velox/functions/sparksql/String.h): substr, trim / ltrim / rtrim
(general trim-set form), substring_index, contains / startsWith /
endsWith.

Strings are modelled as lists of bytes (`List Nat`).  Functions that
return a `StringView` aliasing the input are modelled as returning an
(offset, length) pair into the input byte list; `viewBytes` recovers
the bytes of such a view.  `std::size_t` arithmetic that can wrap
(the backward scan of substring_index) is modelled with explicit
arithmetic modulo 2^64.
-/

/-- Bytes of the view `v` = (offset, length) into the buffer `s`,
corresponding to StringView(s.data() + v.1, v.2). -/
def viewBytes (s : List Nat) (v : Nat × Nat) : List Nat :=
  (s.drop v.1).take v.2

/-- Modelled from the spec (the definition of utf8proc_char_length is not
part of the sources): the byte length (1-4) of the codepoint starting with
lead byte b, determined by the leading byte's high bits. -/
def charLength (b : Nat) : Nat :=
  if b < 128 then 1
  else if b < 192 then 1
  else if b < 224 then 2
  else if b < 240 then 3
  else if b < 248 then 4
  else 1

/-- Modelled from the spec (utf8proc_char_first_byte is not part of the
sources): a byte is a continuation byte iff its two high bits are 10,
i.e. it is in [0x80, 0xC0); a byte starts a codepoint iff it is not a
continuation byte. -/
def isContB (b : Nat) : Bool :=
  decide (128 ≤ b) && decide (b < 192)

/-- A well-formed UTF-8 codepoint as a byte list: non-empty, the lead
byte is not a continuation byte and determines the total length, and
every remaining byte is a continuation byte. -/
def ValidChar (c : List Nat) : Prop :=
  c ≠ [] ∧ charLength (c.headD 0) = c.length ∧
    isContB (c.headD 0) = false ∧ ∀ b ∈ c.tail, isContB b = true

instance : DecidablePred ValidChar := by
  intro c
  unfold ValidChar
  infer_instance

/-- A well-formed UTF-8 string presented as its list of codepoints. -/
def ValidStr (cs : List (List Nat)) : Prop :=
  ∀ c ∈ cs, ValidChar c

instance : DecidablePred ValidStr := by
  intro cs
  unfold ValidStr
  infer_instance

/-- A byte buffer consisting only of single-byte (ASCII) codepoints. -/
def AsciiBytes (s : List Nat) : Prop :=
  ∀ b ∈ s, b < 128

instance : DecidablePred AsciiBytes := by
  intro s
  unfold AsciiBytes
  infer_instance

/-- One step of std::string_view::find: try positions pos, pos+1, ...
(fuel-many of them), returning the first position where the needle d
fits inside s and matches bytewise. -/
def strFindGo (s d : List Nat) : Nat → Nat → Option Nat
  | _, 0 => none
  | pos, fuel + 1 =>
    if pos + d.length ≤ s.length ∧ (s.drop pos).take d.length = d then some pos
    else strFindGo s d (pos + 1) fuel

/-- Model of std::string_view::find(d, pos): the least i ≥ pos with
i + d.length ≤ s.length and a bytewise match of d at i; none models
std::string_view::npos. -/
def strFind (s d : List Nat) (pos : Nat) : Option Nat :=
  strFindGo s d pos (s.length + 1 - pos)

/-- One step of std::string_view::rfind: try positions i, i-1, ..., 0,
returning the first position where the needle fits and matches. -/
def strRfindGo (s d : List Nat) : Nat → Nat → Option Nat
  | _, 0 => none
  | i, fuel + 1 =>
    if i + d.length ≤ s.length ∧ (s.drop i).take d.length = d then some i
    else strRfindGo s d (i - 1) fuel

/-- Model of std::string_view::rfind(d, pos): the greatest i ≤ pos with
i + d.length ≤ s.length and a bytewise match of d at i. -/
def strRfind (s d : List Nat) (pos : Nat) : Option Nat :=
  strRfindGo s d (min pos s.length) (min pos s.length + 1)

/-- Model of std::string_view::find_first_not_of over bytes: index of the
first byte of s that is not contained in the byte set. -/
def findFirstNotOf (s set : List Nat) : Option Nat :=
  match s with
  | [] => none
  | b :: rest =>
    if b ∈ set then (findFirstNotOf rest set).map (· + 1) else some 0

/-- Model of std::string_view::find_last_not_of over bytes: index of the
last byte of s that is not contained in the byte set. -/
def findLastNotOf (s set : List Nat) : Option Nat :=
  (findFirstNotOf s.reverse set).map (fun j => s.length - 1 - j)

/-- Decrement of a std::size_t value: subtraction of 1 modulo 2^64, so 0
wraps around to 2^64 - 1 (which is also the value of std::string::npos). -/
def sizeDec (i : Nat) : Nat :=
  (i + (2 ^ 64 - 1)) % 2 ^ 64

/-- ContainsFunction::call: str.find(pattern) != npos. -/
def containsCall (str pat : List Nat) : Bool :=
  (strFind str pat 0).isSome

/-- StartsWithFunction::call: false if pattern is longer than str,
otherwise compare str.substr(0, pattern.length) with pattern. -/
def startsWithCall (str pat : List Nat) : Bool :=
  if pat.length > str.length then false
  else decide (str.take pat.length = pat)

/-- EndsWithFunction::call: false if pattern is longer than str, otherwise
compare str.substr(str.length - pattern.length, pattern.length) with
pattern. -/
def endsWithCall (str pat : List Nat) : Bool :=
  if pat.length > str.length then false
  else decide ((str.drop (str.length - pat.length)).take pat.length = pat)

/-- Forward scan of SubstringIndexFunction::call for count > 0: the loop
body runs with r+1 iterations remaining; each iteration does
index = str.find(delim, index), breaks on npos, and advances index by one
byte past the match start unless this was the last iteration. -/
def substringIndexForward (s d : List Nat) : Nat → Nat → Option Nat
  | 0, index => some index
  | r + 1, index =>
    match strFind s d index with
    | none => none
    | some i => if r = 0 then some i else substringIndexForward s d r (i + 1)

/-- Backward scan of SubstringIndexFunction::call for count < 0: each
iteration does index = str.rfind(delim, index), breaks on npos, and
decrements index (std::size_t wrap at 0) unless this was the last
iteration. -/
def substringIndexBackward (s d : List Nat) : Nat → Nat → Option Nat
  | 0, index => some index
  | r + 1, index =>
    match strRfind s d index with
    | none => none
    | some i => if r = 0 then some i else substringIndexBackward s d r (sizeDec i)

/-- SubstringIndexFunction::call: returns the view before the count-th
occurrence of delim from the left (count > 0), after the |count|-th
occurrence from the right (count < 0), or the empty view (count = 0);
when the scan runs out of occurrences the whole input is returned.
The initial backward index is strLen - 1 computed in std::size_t. -/
def substringIndexCall (s d : List Nat) (count : Int) : Nat × Nat :=
  if count = 0 then (0, 0)
  else if count > 0 then
    match substringIndexForward s d count.toNat 0 with
    | none => (0, s.length)
    | some index => (0, index)
  else
    match substringIndexBackward s d (-count).toNat (sizeDec s.length) with
    | none => (0, s.length)
    | some index => (index + d.length, s.length - index - d.length)

/-- Fuel-driven codepoint counter; the fuel only needs to be at least the
byte length of the remaining buffer. -/
def lengthUnicodeGo : Nat → List Nat → Nat
  | 0, _ => 0
  | _ + 1, [] => 0
  | fuel + 1, b :: rest => 1 + lengthUnicodeGo fuel (rest.drop (charLength b - 1))

/-- Modelled from the spec (stringImpl::length is not part of the
sources): the number of codepoints of a UTF-8 buffer, obtained by
repeatedly stepping over charLength-many bytes. -/
def lengthUnicode (bs : List Nat) : Nat :=
  lengthUnicodeGo bs.length bs

/-- Modelled from the spec (the advancing loop of stringCore::getByteRange
is not part of the sources): the byte offset reached after advancing n
codepoints from the start of bs, adding each codepoint's byte length and
saturating at the buffer end. -/
def advanceChars : List Nat → Nat → Nat
  | _, 0 => 0
  | [], _ + 1 => 0
  | b :: rest, n + 1 =>
    min (charLength b) (rest.length + 1) +
      advanceChars ((b :: rest).drop (min (charLength b) (rest.length + 1))) n

/-- Modelled from the spec (stringCore::getByteRange of the general UTF-8
path is not part of the sources): byte offsets [first, second) of the
1-based codepoint range [start, start + len - 1] of bs. -/
def getByteRangeUnicode (bs : List Nat) (start len : Nat) : Nat × Nat :=
  let first := advanceChars bs (start - 1)
  (first, first + advanceChars (bs.drop first) len)

/-- Fuel-driven left trim scan; the fuel only needs to be at least the
byte length of the remaining buffer. -/
def ltrimOffsetGo (ts : List Nat) : Nat → List Nat → Nat
  | 0, _ => 0
  | _ + 1, [] => 0
  | fuel + 1, b :: rest =>
    if strFind ts ((b :: rest).take (charLength b)) 0 = none then 0
    else charLength b + ltrimOffsetGo ts fuel ((b :: rest).drop (charLength b))

/-- Left scan of TrimFunctionBase::call: number of bytes consumed from
the front, stepping one codepoint (charLength bytes) at a time while the
codepoint's byte sequence occurs in trimStr (string_view::find). -/
def ltrimOffset (ts src : List Nat) : Nat :=
  ltrimOffsetGo ts src.length src

/-- Right scan of TrimFunctionBase::call: walks positions pos, pos-1,
..., 0 of t with current result end resEnd; continuation bytes are
skipped, and at each codepoint lead byte the byte view
[pos, resEnd) is looked up in trimStr: on a miss the scan stops with
resEnd, on a hit resEnd becomes pos and the walk continues. -/
def rtrimEndAux (ts t : List Nat) (resEnd : Nat) : Nat → Nat
  | 0 =>
    if isContB (t.getD 0 0) then resEnd
    else if strFind ts ((t.drop 0).take (resEnd - 0)) 0 = none then resEnd
    else 0
  | p + 1 =>
    if isContB (t.getD (p + 1) 0) then rtrimEndAux ts t resEnd p
    else if strFind ts ((t.drop (p + 1)).take (resEnd - (p + 1))) 0 = none then
      resEnd
    else rtrimEndAux ts t (p + 1) p

/-- Right scan entry: the loop runs only when t is non-empty (curPos
starts at the last byte); an empty region keeps resultEnd at its end. -/
def rtrimEnd (ts t : List Nat) : Nat :=
  match t with
  | [] => 0
  | _ :: _ => rtrimEndAux ts t t.length (t.length - 1)

/-- TrimFunctionBase::call (general UTF-8 path), with leftTrim/rightTrim
as the two template booleans: empty src gives the empty view, an empty
trim string returns src unchanged, otherwise the left scan fixes the
result begin offset and the right scan fixes the result end (relative to
the remaining region). -/
def trimCall (lt rt : Bool) (trimStr srcStr : List Nat) : Nat × Nat :=
  if srcStr = [] then (0, 0)
  else if trimStr = [] then (0, srcStr.length)
  else
    let b := if lt then ltrimOffset trimStr srcStr else 0
    let t := srcStr.drop b
    let e := if rt then rtrimEnd trimStr t else t.length
    (b, e)

/-- TrimFunctionBase::callAscii: find_first_not_of from the left and
find_last_not_of (over the remaining view) from the right, byte-set
membership of trimStr. -/
def trimCallAscii (lt rt : Bool) (trimStr srcStr : List Nat) : Nat × Nat :=
  if srcStr = [] then (0, 0)
  else if trimStr = [] then (0, srcStr.length)
  else
    match (if lt then findFirstNotOf srcStr trimStr else some 0) with
    | none => (0, 0)
    | some st =>
      let sz := srcStr.length - st
      if rt then
        match findLastNotOf ((srcStr.drop st).take sz) trimStr with
        | none => (0, 0)
        | some lastIdx => (st, lastIdx + 1)
      else (st, sz)

/-- The int32_t value range, used for the overflow-checked addition. -/
def int32Max : Int := 2 ^ 31 - 1

/-- Lower bound of int32_t. -/
def int32Min : Int := -(2 ^ 31)

/-- Model of __builtin_add_overflow on int32_t: the mathematical sum
falls outside the representable range. -/
def addOverflows (a b : Int) : Bool :=
  decide (a + b < int32Min) || decide (a + b > int32Max)

/-- SubstrFunction::doCall, with isAscii as the template boolean:
length <= 0 short-circuits to empty; start == 0 becomes 1; a negative
start is remapped by numCharacters + start + 1; last = start + length - 1
is clamped to numCharacters on overflow or excess; a non-positive start
is then clamped to 1; the final length is last - start + 1 and the byte
range of the resulting codepoint window is returned as a view. -/
def substrDoCall (isAscii : Bool) (input : List Nat) (start0 length0 : Int) :
    Nat × Nat :=
  if length0 ≤ 0 then (0, 0)
  else
    let start1 := if start0 = 0 then 1 else start0
    let numCharacters : Int :=
      if isAscii then (input.length : Int) else (lengthUnicode input : Int)
    let start2 := if start1 < 0 then numCharacters + start1 + 1 else start1
    let last : Int :=
      if addOverflows start2 (length0 - 1) ||
          decide (start2 + (length0 - 1) > numCharacters)
      then numCharacters else start2 + (length0 - 1)
    let start3 := if start2 ≤ 0 then 1 else start2
    let length1 := last - start3 + 1
    if length1 ≤ 0 then (0, 0)
    else
      let byteRange :=
        if isAscii then (start3.toNat - 1, start3.toNat - 1 + length1.toNat)
        else getByteRangeUnicode input start3.toNat length1.toNat
      (byteRange.1, byteRange.2 - byteRange.1)

/-- SubstrFunction::call, the general UTF-8 entry point. -/
def substrCall (input : List Nat) (start length : Int) : Nat × Nat :=
  substrDoCall false input start length

/-- SubstrFunction::callAscii, the ASCII-specialized entry point. -/
def substrCallAscii (input : List Nat) (start length : Int) : Nat × Nat :=
  substrDoCall true input start length

/-- The pure start/length arithmetic of SubstrFunction::doCall, factored
out of the byte-range extraction: given the codepoint count n of the
input, produce none (empty result) or the final 1-based codepoint start
and the positive codepoint length. -/
def substrIndices (n start0 length0 : Int) : Option (Nat × Nat) :=
  if length0 ≤ 0 then none
  else
    let start1 := if start0 = 0 then 1 else start0
    let start2 := if start1 < 0 then n + start1 + 1 else start1
    let last : Int :=
      if addOverflows start2 (length0 - 1) ||
          decide (start2 + (length0 - 1) > n)
      then n else start2 + (length0 - 1)
    let start3 := if start2 ≤ 0 then 1 else start2
    let length1 := last - start3 + 1
    if length1 ≤ 0 then none else some (start3.toNat, length1.toNat)

/-- The spec-side description of the forward scan: the k-th occurrence of
d in s, where the first occurrence is searched from pos and each next
occurrence is searched starting one byte past the previous match's start
(so overlapping occurrences are counted). -/
def nthOcc (s d : List Nat) : Nat → Nat → Option Nat
  | _, 0 => none
  | pos, 1 => strFind s d pos
  | pos, k + 2 =>
    match strFind s d pos with
    | none => none
    | some i => nthOcc s d (i + 1) (k + 1)

/-- The number of (possibly overlapping) occurrences of d in s: the
number of byte offsets at which d fits and matches bytewise. -/
def countOcc (s d : List Nat) : Nat :=
  ((List.range (s.length + 1)).filter
    (fun i => decide (i + d.length ≤ s.length) &&
      decide ((s.drop i).take d.length = d))).length

/-- Dropping elements from the right end of a list while a predicate
holds. -/
def dropWhileRight (p : List Nat → Bool) (l : List (List Nat)) :
    List (List Nat) :=
  (l.reverse.dropWhile p).reverse

/-- A result view lies inside its input buffer and its bytes are a
contiguous byte sub-range of the input: the buffer splits as the bytes
before the view, the view bytes, and the bytes after it. -/
def viewOk (s : List Nat) (v : Nat × Nat) : Prop :=
  v.1 + v.2 ≤ s.length ∧
    s = s.take v.1 ++ viewBytes s v ++ s.drop (v.1 + v.2)

/-! ### Basic facts and evaluation examples -/

theorem charLength_pos (b : Nat) : 1 ≤ charLength b := by
  unfold charLength
  repeat' split
  all_goals omega

theorem charLength_le_four (b : Nat) : charLength b ≤ 4 := by
  unfold charLength
  repeat' split
  all_goals omega

example : viewBytes [72, 101, 108, 108, 111] (substrCall [72, 101, 108, 108, 111] 0 3) = [72, 101, 108] := by decide

example : viewBytes [72, 101, 108, 108, 111] (substrCall [72, 101, 108, 108, 111] (-3) 2) = [108, 108] := by decide


/-! ### Characterization of the string search primitives -/

theorem strFindGo_some {s d : List Nat} {pos fuel i : Nat}
    (h : strFindGo s d pos fuel = some i) :
    pos ≤ i ∧ i + d.length ≤ s.length ∧ (s.drop i).take d.length = d := by
  induction fuel generalizing pos with
  | zero => simp [strFindGo] at h
  | succ n ih =>
    simp only [strFindGo] at h
    split at h
    · rename_i hc
      injection h with h
      subst h
      exact ⟨le_refl _, hc.1, hc.2⟩
    · have := ih h
      exact ⟨by omega, this.2.1, this.2.2⟩

theorem strFindGo_min {s d : List Nat} {pos fuel i : Nat}
    (h : strFindGo s d pos fuel = some i) :
    ∀ j, pos ≤ j → j < i →
      ¬(j + d.length ≤ s.length ∧ (s.drop j).take d.length = d) := by
  induction fuel generalizing pos with
  | zero => simp [strFindGo] at h
  | succ n ih =>
    intro j hj hji
    simp only [strFindGo] at h
    split at h
    · injection h with h
      omega
    · rename_i hc
      rcases Nat.eq_or_lt_of_le hj with rfl | hlt
      · exact hc
      · exact ih h j hlt hji

theorem strFindGo_none {s d : List Nat} {pos fuel : Nat}
    (h : strFindGo s d pos fuel = none) :
    ∀ i, pos ≤ i → i < pos + fuel →
      ¬(i + d.length ≤ s.length ∧ (s.drop i).take d.length = d) := by
  induction fuel generalizing pos with
  | zero => omega
  | succ n ih =>
    intro i hi hilt
    simp only [strFindGo] at h
    split at h
    · exact absurd h (by simp)
    · rename_i hc
      rcases Nat.eq_or_lt_of_le hi with rfl | hlt
      · exact hc
      · exact ih h i hlt (by omega)

theorem strFind_some {s d : List Nat} {pos i : Nat}
    (h : strFind s d pos = some i) :
    pos ≤ i ∧ i + d.length ≤ s.length ∧ (s.drop i).take d.length = d :=
  strFindGo_some h

theorem strFind_min {s d : List Nat} {pos i : Nat}
    (h : strFind s d pos = some i) :
    ∀ j, pos ≤ j → j < i →
      ¬(j + d.length ≤ s.length ∧ (s.drop j).take d.length = d) :=
  strFindGo_min h

theorem strFind_none {s d : List Nat} {pos : Nat}
    (h : strFind s d pos = none) :
    ∀ i, pos ≤ i → i + d.length ≤ s.length → (s.drop i).take d.length ≠ d := by
  intro i hpi hfit hm
  exact strFindGo_none h i hpi (by omega) ⟨hfit, hm⟩

theorem strFind_isSome {s d : List Nat} {pos j : Nat}
    (hj : pos ≤ j) (hfit : j + d.length ≤ s.length)
    (hm : (s.drop j).take d.length = d) : (strFind s d pos).isSome := by
  cases hf : strFind s d pos with
  | none => exact absurd hm (strFind_none hf j hj hfit)
  | some i => rfl

theorem strRfindGo_some {s d : List Nat} {i0 fuel i : Nat}
    (h : strRfindGo s d i0 fuel = some i) :
    i ≤ i0 ∧ i + d.length ≤ s.length ∧ (s.drop i).take d.length = d := by
  induction fuel generalizing i0 with
  | zero => simp [strRfindGo] at h
  | succ n ih =>
    simp only [strRfindGo] at h
    split at h
    · rename_i hc
      injection h with h
      subst h
      exact ⟨le_refl _, hc.1, hc.2⟩
    · have := ih h
      exact ⟨by omega, this.2.1, this.2.2⟩

theorem strRfind_some {s d : List Nat} {pos i : Nat}
    (h : strRfind s d pos = some i) :
    i ≤ pos ∧ i + d.length ≤ s.length ∧ (s.drop i).take d.length = d := by
  have := strRfindGo_some h
  exact ⟨le_trans this.1 (min_le_left _ _), this.2.1, this.2.2⟩

/-- A single-byte needle is found in a haystack iff the byte occurs
in it. -/
theorem strFind_single_none_iff (ts : List Nat) (b : Nat) :
    strFind ts [b] 0 = none ↔ b ∉ ts := by
  constructor
  · intro h hb
    rcases List.mem_iff_getElem.mp hb with ⟨j, hj, rfl⟩
    refine strFind_none h j (Nat.zero_le _) (by simp; omega) ?_
    rw [List.drop_eq_getElem_cons hj]
    simp [List.take_one, List.getElem?_eq_getElem hj]
  · intro hb
    cases hf : strFind ts [b] 0 with
    | none => rfl
    | some i =>
      exfalso
      obtain ⟨-, hfit, hm⟩ := strFind_some hf
      simp only [List.length_cons, List.length_nil] at hfit
      rw [List.drop_eq_getElem_cons (by omega)] at hm
      simp only [List.take_succ_cons, List.take_zero] at hm
      injection hm with h1 h2
      exact hb (h1 ▸ List.getElem_mem (by omega))

/-! ### Structure of valid UTF-8 buffers -/

theorem validChar_ne_nil {c : List Nat} (h : ValidChar c) : c ≠ [] := h.1

theorem validStr_cons {c : List Nat} {cs : List (List Nat)}
    (h : ValidStr (c :: cs)) : ValidChar c ∧ ValidStr cs := by
  constructor
  · exact h c (List.mem_cons_self c cs)
  · intro x hx
    exact h x (List.mem_cons_of_mem c hx)

theorem validStr_drop {cs : List (List Nat)} (h : ValidStr cs) (n : Nat) :
    ValidStr (cs.drop n) := by
  intro x hx
  exact h x ((List.drop_sublist n cs).mem hx)

theorem validStr_append_right {cs ds : List (List Nat)}
    (h : ValidStr (cs ++ ds)) : ValidStr cs := by
  intro x hx
  exact h x (List.mem_append_left ds hx)

/-- A valid codepoint written with an explicit head byte: the head
determines the length and the tail is all continuation bytes. -/
theorem validChar_cons {b : Nat} {tb : List Nat} (h : ValidChar (b :: tb)) :
    charLength b = tb.length + 1 ∧ isContB b = false ∧
      ∀ x ∈ tb, isContB x = true := by
  obtain ⟨-, hlen, hcont, htail⟩ := h
  simp only [List.headD_cons, List.length_cons] at hlen hcont
  exact ⟨hlen, hcont, fun x hx => htail x hx⟩

theorem lengthUnicodeGo_congr {f1 f2 : Nat} {bs : List Nat}
    (h1 : bs.length ≤ f1) (h2 : bs.length ≤ f2) :
    lengthUnicodeGo f1 bs = lengthUnicodeGo f2 bs := by
  induction f1 generalizing f2 bs with
  | zero =>
    have : bs = [] := List.length_eq_zero.mp (by omega)
    subst this
    cases f2 <;> simp [lengthUnicodeGo]
  | succ n ih =>
    cases bs with
    | nil => cases f2 <;> simp [lengthUnicodeGo]
    | cons b rest =>
      cases f2 with
      | zero => simp at h2
      | succ m =>
        simp only [lengthUnicodeGo]
        congr 1
        apply ih
        · simp only [List.length_drop]
          simp only [List.length_cons] at h1
          omega
        · simp only [List.length_drop]
          simp only [List.length_cons] at h2
          omega

theorem lengthUnicode_nil : lengthUnicode [] = 0 := rfl

theorem lengthUnicode_cons (b : Nat) (rest : List Nat) :
    lengthUnicode (b :: rest) =
      1 + lengthUnicode (rest.drop (charLength b - 1)) := by
  unfold lengthUnicode
  simp only [List.length_cons, lengthUnicodeGo]
  congr 1
  apply lengthUnicodeGo_congr
  · simp only [List.length_drop]; omega
  · simp

/-- On a valid UTF-8 buffer, the modelled stringImpl::length counts
exactly the codepoints. -/
theorem lengthUnicode_flatten {cs : List (List Nat)} (h : ValidStr cs) :
    lengthUnicode cs.flatten = cs.length := by
  induction cs with
  | nil => simp [lengthUnicode, lengthUnicodeGo]
  | cons c cs ih =>
    obtain ⟨hc, hcs⟩ := validStr_cons h
    obtain ⟨b, tb, rfl⟩ := List.exists_cons_of_ne_nil (validChar_ne_nil hc)
    obtain ⟨hlen, -, -⟩ := validChar_cons hc
    have : ((b :: tb) :: cs).flatten = b :: (tb ++ cs.flatten) := by simp
    rw [this, lengthUnicode_cons, hlen]
    simp only [Nat.add_sub_cancel, List.drop_left]
    rw [ih hcs]
    simp [Nat.add_comm]

theorem advanceChars_le (bs : List Nat) (n : Nat) :
    advanceChars bs n ≤ bs.length := by
  induction n generalizing bs with
  | zero => simp [advanceChars]
  | succ m ih =>
    cases bs with
    | nil => simp [advanceChars]
    | cons b rest =>
      simp only [advanceChars]
      have h1 := ih ((b :: rest).drop (min (charLength b) (rest.length + 1)))
      simp only [List.length_drop, List.length_cons] at h1 ⊢
      omega

/-- On a valid UTF-8 buffer, advancing n codepoints lands exactly at the
byte length of the first n codepoints. -/
theorem advanceChars_flatten {cs : List (List Nat)} (h : ValidStr cs)
    (n : Nat) : advanceChars cs.flatten n = ((cs.take n).flatten).length := by
  induction n generalizing cs with
  | zero => simp [advanceChars]
  | succ m ih =>
    cases cs with
    | nil => simp [advanceChars]
    | cons c cs =>
      obtain ⟨hc, hcs⟩ := validStr_cons h
      obtain ⟨b, tb, rfl⟩ := List.exists_cons_of_ne_nil (validChar_ne_nil hc)
      obtain ⟨hlen, -, -⟩ := validChar_cons hc
      have hflat : ((b :: tb) :: cs).flatten = b :: (tb ++ cs.flatten) := by
        simp
      rw [hflat]
      simp only [advanceChars]
      have hmin : min (charLength b) ((tb ++ cs.flatten).length + 1) =
          tb.length + 1 := by
        simp only [List.length_append]
        omega
      rw [hmin]
      have hdrop : (b :: (tb ++ cs.flatten)).drop (tb.length + 1) =
          cs.flatten := by
        have : b :: (tb ++ cs.flatten) = (b :: tb) ++ cs.flatten := by simp
        rw [this]
        have : tb.length + 1 = (b :: tb).length := by simp
        rw [this, List.drop_left]
      rw [hdrop, ih hcs]
      simp only [List.take_succ_cons, List.flatten_cons, List.length_append,
        List.length_cons]

/-- A flattened list splits as the flattening of its first n blocks
followed by the flattening of the rest. -/
theorem flatten_split (cs : List (List Nat)) (n : Nat) :
    cs.flatten = (cs.take n).flatten ++ (cs.drop n).flatten := by
  rw [← List.flatten_append, List.take_append_drop]

/-- Dropping the bytes of the first n codepoints of a flattened valid
string leaves the flattening of the remaining codepoints. -/
theorem flatten_drop_bytes (cs : List (List Nat)) (n : Nat) :
    cs.flatten.drop ((cs.take n).flatten).length = (cs.drop n).flatten := by
  rw [flatten_split cs n, List.drop_left]

theorem flatten_take_bytes (cs : List (List Nat)) (n : Nat) :
    cs.flatten.take ((cs.take n).flatten).length = (cs.take n).flatten := by
  rw [flatten_split cs n, List.take_left]

/-- Correctness of the modelled getByteRange on valid UTF-8: the view it
produces is exactly the flattening of the requested 1-based codepoint
window. -/
theorem getByteRangeUnicode_spec {cs : List (List Nat)} (h : ValidStr cs)
    (st len : Nat) :
    viewBytes cs.flatten
      ((getByteRangeUnicode cs.flatten st len).1,
        (getByteRangeUnicode cs.flatten st len).2 -
          (getByteRangeUnicode cs.flatten st len).1) =
      ((cs.drop (st - 1)).take len).flatten := by
  unfold getByteRangeUnicode viewBytes
  simp only [Nat.add_sub_cancel_left]
  rw [advanceChars_flatten h, flatten_drop_bytes,
    advanceChars_flatten (validStr_drop h (st - 1)), flatten_take_bytes]

/-! ### The substr start/length arithmetic -/

theorem substrDoCall_eq_indices (isA : Bool) (s : List Nat)
    (start0 length0 : Int) :
    substrDoCall isA s start0 length0 =
      match substrIndices
          (if isA then (s.length : Int) else (lengthUnicode s : Int))
          start0 length0 with
      | none => (0, 0)
      | some (st, ln) =>
        if isA then (st - 1, st - 1 + ln - (st - 1))
        else ((getByteRangeUnicode s st ln).1,
          (getByteRangeUnicode s st ln).2 - (getByteRangeUnicode s st ln).1) := by
  unfold substrDoCall substrIndices
  dsimp only
  split_ifs <;> rfl

theorem substrIndices_some {n start0 length0 : Int} {st ln : Nat}
    (h : substrIndices n start0 length0 = some (st, ln)) :
    1 ≤ st ∧ 1 ≤ ln ∧ (st : Int) + (ln : Int) - 1 ≤ n := by
  unfold substrIndices at h
  simp only [addOverflows, Bool.or_eq_true, decide_eq_true_eq] at h
  split_ifs at h <;>
    (simp only [Option.some.injEq, Prod.mk.injEq] at h
     obtain ⟨rfl, rfl⟩ := h
     refine ⟨by omega, by omega, by omega⟩)

/-! ### The ASCII fast path of substr -/

theorem charLength_ascii {b : Nat} (h : b < 128) : charLength b = 1 := by
  unfold charLength
  rw [if_pos h]

theorem asciiBytes_cons {b : Nat} {rest : List Nat}
    (h : AsciiBytes (b :: rest)) : b < 128 ∧ AsciiBytes rest := by
  refine ⟨h b (List.mem_cons_self b rest), fun x hx => h x ?_⟩
  exact List.mem_cons_of_mem b hx

theorem asciiBytes_drop {s : List Nat} (h : AsciiBytes s) (n : Nat) :
    AsciiBytes (s.drop n) := by
  intro b hb
  exact h b ((List.drop_sublist n s).mem hb)

theorem ascii_lengthUnicode {s : List Nat} (h : AsciiBytes s) :
    lengthUnicode s = s.length := by
  induction s with
  | nil => rfl
  | cons b rest ih =>
    obtain ⟨hb, hrest⟩ := asciiBytes_cons h
    rw [lengthUnicode_cons, charLength_ascii hb]
    simp only [Nat.sub_self, List.drop_zero, ih hrest, List.length_cons]
    omega

theorem ascii_advanceChars {s : List Nat} (h : AsciiBytes s) (n : Nat) :
    advanceChars s n = min n s.length := by
  induction n generalizing s with
  | zero => simp [advanceChars]
  | succ m ih =>
    cases s with
    | nil => simp [advanceChars]
    | cons b rest =>
      obtain ⟨hb, hrest⟩ := asciiBytes_cons h
      simp only [advanceChars, charLength_ascii hb]
      have hmin : min 1 (rest.length + 1) = 1 := by omega
      rw [hmin]
      have hdrop : (b :: rest).drop 1 = rest := rfl
      rw [hdrop, ih hrest]
      simp only [List.length_cons]
      omega

/-- On ASCII-only input the modelled getByteRange degenerates to plain
offset arithmetic. -/
theorem getByteRangeUnicode_ascii {s : List Nat} (hA : AsciiBytes s)
    {st ln : Nat} (h : st - 1 + ln ≤ s.length) :
    getByteRangeUnicode s st ln = (st - 1, st - 1 + ln) := by
  have h1 : min (st - 1) s.length = st - 1 := by omega
  have h2 : min ln (s.length - (st - 1)) = ln := by omega
  simp only [getByteRangeUnicode, ascii_advanceChars hA, h1,
    ascii_advanceChars (asciiBytes_drop hA (st - 1)), List.length_drop, h2]

/-- On ASCII-only input the two template instantiations of
SubstrFunction::doCall return the same view. -/
theorem substr_paths_agree {s : List Nat} (hA : AsciiBytes s)
    (start length : Int) :
    substrDoCall true s start length = substrDoCall false s start length := by
  rw [substrDoCall_eq_indices, substrDoCall_eq_indices]
  rw [if_neg Bool.false_ne_true, if_pos rfl, ascii_lengthUnicode hA]
  cases hI : substrIndices (s.length : Int) start length with
  | none => rfl
  | some pr =>
    obtain ⟨st, ln⟩ := pr
    obtain ⟨hst, hln, hle⟩ := substrIndices_some hI
    have hb : st - 1 + ln ≤ s.length := by omega
    dsimp only
    simp only [reduceIte]
    rw [getByteRangeUnicode_ascii hA hb]
    simp only [Bool.false_eq_true, if_false]

/-! ### Claim theorems for substr (C5, C7, C1) -/

/-- C5: substr(s, start, length) returns the empty string whenever
length <= 0, for every input and every start value (the check happens
before start is remapped or used in the overflow-checked addition), on
both the ASCII and the general path. -/
theorem substr_length_nonpos_empty (isA : Bool) (s : List Nat)
    (start length : Int) (h : length ≤ 0) :
    viewBytes s (substrDoCall isA s start length) = [] := by
  unfold substrDoCall
  rw [if_pos h]
  rfl

theorem substr_length_nonpos_empty_w :
    (-7 : Int) ≤ 0 ∧
      viewBytes [104, 105] (substrDoCall false [104, 105] 5 (-7)) = [] :=
  ⟨by decide, substr_length_nonpos_empty false [104, 105] 5 (-7) (by decide)⟩

/-- C7: for every non-empty valid UTF-8 string, substr(s, 1, n) with n
the codepoint count of s returns s itself. -/
theorem substr_full_range_identity {cs : List (List Nat)} (hv : ValidStr cs)
    (hne : cs ≠ []) :
    viewBytes cs.flatten (substrCall cs.flatten 1 (cs.length : Int)) =
      cs.flatten := by
  have hn : 0 < cs.length := List.length_pos.mpr hne
  have hI : substrIndices ((cs.length : Nat) : Int) 1 (cs.length : Int) =
      some (1, cs.length) := by
    unfold substrIndices
    dsimp only
    simp only [addOverflows, int32Min, int32Max, Bool.or_eq_true,
      decide_eq_true_eq, gt_iff_lt]
    split_ifs <;>
      first
        | (exfalso; omega)
        | (simp only [Option.some.injEq, Prod.mk.injEq]
           constructor <;> omega)
  rw [substrCall, substrDoCall_eq_indices, if_neg Bool.false_ne_true,
    lengthUnicode_flatten hv, hI]
  dsimp only
  simp only [Bool.false_eq_true, if_false]
  rw [getByteRangeUnicode_spec hv 1 cs.length]
  simp

theorem substr_full_range_identity_w :
    viewBytes (List.flatten [[104], [195, 169]])
      (substrCall (List.flatten [[104], [195, 169]]) 1 2) =
      List.flatten [[104], [195, 169]] := by
  have h := @substr_full_range_identity [[104], [195, 169]]
    (by decide) (by decide)
  simpa using h

/-- The start/length arithmetic of substr written as the ordered
pipeline of the specification: negative-start remapping first, then the
overflow-checked and clamped last, then the clamp of a non-positive
start, then the final length. -/
theorem substrIndices_pipeline (n start length : Int) (hlen : 0 < length)
    (hstart : start ≠ 0) :
    substrIndices n start length =
      (let startR := if start < 0 then n + start + 1 else start
       let lastRaw := startR + (length - 1)
       let last := if lastRaw < int32Min ∨ int32Max < lastRaw ∨ n < lastRaw
         then n else lastRaw
       let startC := if startR ≤ 0 then 1 else startR
       let lengthF := last - startC + 1
       if lengthF ≤ 0 then none else some (startC.toNat, lengthF.toNat)) := by
  unfold substrIndices
  dsimp only
  rw [if_neg (not_le.mpr hlen), if_neg hstart]
  simp only [addOverflows, Bool.or_eq_true, decide_eq_true_eq, gt_iff_lt,
    or_assoc]

/-- C1: for every valid UTF-8 input, nonzero start, and positive length
(length <= 0 short-circuits per C5, start == 0 is pre-normalized to 1),
the general path of substr computes its result by the claimed order: a
negative start is remapped to numCodepoints + start + 1 before
last = start + length - 1 is computed with int32-overflow-checked
addition and clamped to numCodepoints on overflow or excess, and only
afterwards is a non-positive start clamped to 1 and the final length
recomputed as last - start + 1; the result is the corresponding
codepoint window of the input. -/
theorem substr_arith_pipeline {cs : List (List Nat)} (hv : ValidStr cs)
    (start length : Int) (hlen : 0 < length) (hstart : start ≠ 0) :
    viewBytes cs.flatten (substrCall cs.flatten start length) =
      (let n : Int := (cs.length : Int)
       let startR := if start < 0 then n + start + 1 else start
       let lastRaw := startR + (length - 1)
       let last := if lastRaw < int32Min ∨ int32Max < lastRaw ∨ n < lastRaw
         then n else lastRaw
       let startC := if startR ≤ 0 then 1 else startR
       let lengthF := last - startC + 1
       if lengthF ≤ 0 then []
       else ((cs.drop (startC.toNat - 1)).take lengthF.toNat).flatten) := by
  rw [substrCall, substrDoCall_eq_indices, if_neg Bool.false_ne_true,
    lengthUnicode_flatten hv, substrIndices_pipeline _ _ _ hlen hstart]
  dsimp only
  split_ifs <;>
    first
      | contradiction
      | rfl
      | (simp only [Bool.false_eq_true, if_false]
         exact getByteRangeUnicode_spec hv _ _)

theorem substr_arith_pipeline_w :
    viewBytes (List.flatten [[97], [98], [99]])
      (substrCall (List.flatten [[97], [98], [99]]) (-2) 5) = [98, 99] :=
  (@substr_arith_pipeline [[97], [98], [99]] (by decide) (-2) 5
    (by decide) (by decide)).trans (by decide)

/-! ### substring_index: forward scan, empty delimiter, occurrence count -/

theorem substringIndexForward_eq_nthOcc (s d : List Nat) :
    ∀ k pos, substringIndexForward s d (k + 1) pos = nthOcc s d pos (k + 1) := by
  intro k
  induction k with
  | zero =>
    intro pos
    simp only [substringIndexForward, nthOcc]
    cases strFind s d pos <;> simp
  | succ m ih =>
    intro pos
    simp only [substringIndexForward, nthOcc]
    cases strFind s d pos with
    | none => rfl
    | some i =>
      simp only [Nat.succ_ne_zero, if_false]
      exact ih (i + 1)

/-- C3: if the delimiter occurrence scan that restarts one byte past each
previous match start finds a count-th occurrence at byte offset p, then
substring_index(s, d, count) with count > 0 returns exactly the byte
prefix of s strictly before p. -/
theorem substring_index_forward_count (s d : List Nat) (count : Int)
    (_hd : d ≠ []) (hc : 0 < count) {p : Nat}
    (hp : nthOcc s d 0 count.toNat = some p) :
    viewBytes s (substringIndexCall s d count) = s.take p := by
  unfold substringIndexCall
  rw [if_neg (by omega : ¬count = 0), if_pos hc]
  obtain ⟨k, hk⟩ : ∃ k, count.toNat = k + 1 := ⟨count.toNat - 1, by omega⟩
  rw [hk, substringIndexForward_eq_nthOcc, ← hk, hp]
  simp [viewBytes]

theorem substring_index_forward_count_w :
    nthOcc [97, 46, 98, 46, 99] [46] 0 (Int.toNat 2) = some 3 ∧
      viewBytes [97, 46, 98, 46, 99]
        (substringIndexCall [97, 46, 98, 46, 99] [46] 2) = [97, 46, 98] :=
  ⟨by decide,
    (substring_index_forward_count [97, 46, 98, 46, 99] [46] 2 (by decide)
      (by decide) (p := 3) (by decide)).trans (by decide)⟩

theorem strFind_empty_le {s : List Nat} {pos : Nat} (h : pos ≤ s.length) :
    strFind s [] pos = some pos := by
  cases hf : strFind s [] pos with
  | none =>
    have := strFind_none hf pos le_rfl (by simpa using h)
    simp at this
  | some i =>
    obtain ⟨h1, -, -⟩ := strFind_some hf
    rcases Nat.eq_or_lt_of_le h1 with rfl | hlt
    · rfl
    · have := strFind_min hf pos le_rfl hlt
      simp [h] at this

theorem strFind_empty_gt {s : List Nat} {pos : Nat} (h : s.length < pos) :
    strFind s [] pos = none := by
  unfold strFind
  have hf : s.length + 1 - pos = 0 := by omega
  rw [hf]
  rfl

theorem substringIndexForward_succ (s d : List Nat) (r index : Nat) :
    substringIndexForward s d (r + 1) index =
      match strFind s d index with
      | none => none
      | some i => if r = 0 then some i
        else substringIndexForward s d r (i + 1) := rfl

theorem substringIndexForward_empty (s : List Nat) :
    ∀ r pos, pos ≤ s.length →
      substringIndexForward s [] (r + 1) pos =
        if pos + r ≤ s.length then some (pos + r) else none := by
  intro r
  induction r with
  | zero =>
    intro pos hpos
    rw [substringIndexForward_succ, strFind_empty_le hpos,
      if_pos (by omega : pos + 0 ≤ s.length)]
    simp
  | succ m ih =>
    intro pos hpos
    rw [substringIndexForward_succ, strFind_empty_le hpos]
    simp only [Nat.succ_ne_zero, if_false]
    by_cases hp1 : pos + 1 ≤ s.length
    · rw [ih (pos + 1) hp1]
      by_cases hle : pos + 1 + m ≤ s.length
      · rw [if_pos hle, if_pos (by omega)]
        congr 1
        omega
      · rw [if_neg hle, if_neg (by omega)]
    · rw [substringIndexForward_succ, strFind_empty_gt (by omega),
        if_neg (by omega : ¬pos + (m + 1) ≤ s.length)]

/-- C10: substring_index(str, "", count) with an empty delimiter and
count > 0 returns the byte prefix of str of length
min(count - 1, byte length of str); in particular the empty string for
count = 1. -/
theorem substring_index_empty_delim (s : List Nat) (count : Int)
    (hc : 0 < count) :
    viewBytes s (substringIndexCall s [] count) =
      s.take (min (count.toNat - 1) s.length) := by
  unfold substringIndexCall
  rw [if_neg (by omega : ¬count = 0), if_pos hc]
  obtain ⟨k, hk⟩ : ∃ k, count.toNat = k + 1 := ⟨count.toNat - 1, by omega⟩
  rw [hk, substringIndexForward_empty s k 0 (Nat.zero_le _)]
  by_cases hle : k ≤ s.length
  · rw [if_pos (by omega)]
    simp only [viewBytes, List.drop_zero]
    congr 1
    omega
  · rw [if_neg (by omega)]
    simp only [viewBytes, List.drop_zero]
    rw [List.take_length, min_eq_right (by omega), List.take_length]

theorem substring_index_empty_delim_w :
    (0 : Int) < 3 ∧
      viewBytes [97, 98, 99, 100]
        (substringIndexCall [97, 98, 99, 100] [] 3) = [97, 98] :=
  ⟨by decide,
    (substring_index_empty_delim [97, 98, 99, 100] 3 (by decide)).trans
      (by decide)⟩

/-- C6 fails on the code: the input "ab" contains exactly one occurrence
of the delimiter "ab", so with count = -2 the claim requires the whole
input back, but the backward scan decrements the std::size_t index 0 to
npos, rfind finds the same occurrence at offset 0 again, and the function
returns the empty suffix after it instead of the original input. -/
theorem substring_index_neg_count_bug :
    countOcc [97, 98] [97, 98] = 1 ∧ 1 < 2 ∧
      viewBytes [97, 98] (substringIndexCall [97, 98] [97, 98] (-2)) = [] :=
  ⟨by decide, by decide, by decide⟩

/-! ### Trim: UTF-8 self-synchronization -/

/-- Every non-continuation byte inside a flattened valid string sits at a
codepoint boundary. -/
theorem flatten_boundary {tsl : List (List Nat)} (hts : ValidStr tsl) :
    ∀ p, p < tsl.flatten.length → isContB (tsl.flatten.getD p 0) = false →
      ∃ pre suf, tsl = pre ++ suf ∧ suf ≠ [] ∧ p = pre.flatten.length := by
  induction tsl with
  | nil => simp
  | cons c rest ih =>
    intro p hp hcont
    obtain ⟨hc, hrest⟩ := validStr_cons hts
    obtain ⟨b, tb, rfl⟩ := List.exists_cons_of_ne_nil (validChar_ne_nil hc)
    obtain ⟨-, -, htail⟩ := validChar_cons hc
    by_cases hpc : p < (b :: tb).length
    · rcases Nat.eq_zero_or_pos p with rfl | hppos
      · exact ⟨[], (b :: tb) :: rest, rfl, by simp, rfl⟩
      · exfalso
        have hg : ((b :: tb) :: rest).flatten.getD p 0 =
            (b :: tb).getD p 0 := by
          rw [List.flatten_cons]
          exact List.getD_append _ _ _ _ hpc
        have hmem : (b :: tb).getD p 0 ∈ tb := by
          obtain ⟨q, rfl⟩ : ∃ q, p = q + 1 := ⟨p - 1, by omega⟩
          simp only [List.getD_cons_succ]
          have hq : q < tb.length := by
            simp only [List.length_cons] at hpc
            omega
          rw [List.getD_eq_getElem tb 0 hq]
          exact List.getElem_mem hq
        have := htail _ hmem
        rw [hg] at hcont
        rw [this] at hcont
        exact absurd hcont (by simp)
    · have hg : ((b :: tb) :: rest).flatten.getD p 0 =
          rest.flatten.getD (p - (b :: tb).length) 0 := by
        rw [List.flatten_cons]
        exact List.getD_append_right _ _ _ _ (by omega)
      have hp' : p - (b :: tb).length < rest.flatten.length := by
        simp only [List.flatten_cons, List.length_append] at hp
        omega
      obtain ⟨pre, suf, rfl, hne, hpre⟩ :=
        ih hrest (p - (b :: tb).length) hp' (by rw [← hg]; exact hcont)
      refine ⟨(b :: tb) :: pre, suf, rfl, hne, ?_⟩
      simp only [List.flatten_cons, List.length_append]
      omega

/-- Self-synchronization: the byte sequence of a valid codepoint occurs
inside a flattened valid string iff it is one of its codepoints.  This is
why the byte-level string_view::find membership test of the trim engine
agrees with codepoint membership. -/
theorem strFind_char_mem {tsl : List (List Nat)} (hts : ValidStr tsl)
    {c : List Nat} (hc : ValidChar c) :
    strFind tsl.flatten c 0 = none ↔ c ∉ tsl := by
  obtain ⟨b, tb, rfl⟩ := List.exists_cons_of_ne_nil (validChar_ne_nil hc)
  obtain ⟨hlenc, hcontc, -⟩ := validChar_cons hc
  constructor
  · intro hf hmem
    obtain ⟨pre, suf, rfl⟩ := List.append_of_mem hmem
    refine strFind_none hf pre.flatten.length (Nat.zero_le _) ?_ ?_
    · simp only [List.flatten_append, List.flatten_cons, List.length_append,
        List.length_cons]
      omega
    · rw [List.flatten_append, List.drop_left, List.flatten_cons]
      exact List.take_left _ _
  · intro hmem
    cases hf : strFind tsl.flatten (b :: tb) 0 with
    | none => rfl
    | some i =>
      exfalso
      obtain ⟨-, hfit, hmatch⟩ := strFind_some hf
      have hi : i < tsl.flatten.length := by
        simp only [List.length_cons] at hfit
        omega
      have hib : tsl.flatten.getD i 0 = b := by
        rw [List.getD_eq_getElem _ 0 hi]
        rw [List.drop_eq_getElem_cons hi] at hmatch
        simp only [List.length_cons, List.take_succ_cons] at hmatch
        injection hmatch with h1 h2
      obtain ⟨pre, suf, heq, hne, hpre⟩ :=
        flatten_boundary hts i hi (by rw [hib]; exact hcontc)
      obtain ⟨c0, suf0, rfl⟩ := List.exists_cons_of_ne_nil hne
      have hvc0 : ValidChar c0 := by
        refine hts c0 ?_
        rw [heq]
        exact List.mem_append_right pre (List.mem_cons_self c0 suf0)
      obtain ⟨b0, tb0, rfl⟩ := List.exists_cons_of_ne_nil (validChar_ne_nil hvc0)
      obtain ⟨hlen0, -, -⟩ := validChar_cons hvc0
      have hdropi : tsl.flatten.drop i = (b0 :: tb0) ++ suf0.flatten := by
        rw [heq, hpre, List.flatten_append, List.drop_left, List.flatten_cons]
      rw [hdropi] at hmatch
      simp only [List.length_cons, List.cons_append, List.take_succ_cons]
        at hmatch
      injection hmatch with h1 h2
      subst h1
      have htb : tb0.length = tb.length := by omega
      rw [← htb, List.take_left] at h2
      subst h2
      refine hmem ?_
      rw [heq]
      exact List.mem_append_right pre (List.mem_cons_self _ suf0)

/-! ### Trim: the left scan -/

theorem ltrimOffsetGo_congr (ts : List Nat) {f1 f2 : Nat} {src : List Nat}
    (h1 : src.length ≤ f1) (h2 : src.length ≤ f2) :
    ltrimOffsetGo ts f1 src = ltrimOffsetGo ts f2 src := by
  induction f1 generalizing f2 src with
  | zero =>
    have : src = [] := List.length_eq_zero.mp (by omega)
    subst this
    cases f2 <;> simp [ltrimOffsetGo]
  | succ n ih =>
    cases src with
    | nil => cases f2 <;> simp [ltrimOffsetGo]
    | cons b rest =>
      cases f2 with
      | zero => simp at h2
      | succ m =>
        simp only [ltrimOffsetGo]
        split_ifs with hmem
        · rfl
        · congr 1
          apply ih
          · simp only [List.length_drop, List.length_cons]
            simp only [List.length_cons] at h1
            have := charLength_pos b
            omega
          · simp only [List.length_drop, List.length_cons]
            simp only [List.length_cons] at h2
            have := charLength_pos b
            omega

theorem ltrimOffset_cons (ts b : _) (rest : List Nat) :
    ltrimOffset ts (b :: rest) =
      if strFind ts ((b :: rest).take (charLength b)) 0 = none then 0
      else charLength b + ltrimOffset ts ((b :: rest).drop (charLength b)) := by
  unfold ltrimOffset
  simp only [List.length_cons, ltrimOffsetGo]
  split_ifs with hmem
  · rfl
  · congr 1
    apply ltrimOffsetGo_congr
    · simp only [List.length_drop, List.length_cons]
      have := charLength_pos b
      omega
    · simp

/-- The left scan of the trim engine drops exactly the maximal prefix of
codepoints that belong to the trim set (byte-level find agreeing with
codepoint membership by self-synchronization). -/
theorem ltrimOffset_flatten {tsl cs : List (List Nat)} (hts : ValidStr tsl)
    (hcs : ValidStr cs) :
    ltrimOffset tsl.flatten cs.flatten =
      ((cs.takeWhile (fun c => decide (c ∈ tsl))).flatten).length := by
  induction cs with
  | nil => rfl
  | cons c rest ih =>
    obtain ⟨hc, hrest⟩ := validStr_cons hcs
    obtain ⟨b, tb, rfl⟩ := List.exists_cons_of_ne_nil (validChar_ne_nil hc)
    obtain ⟨hlen, -, -⟩ := validChar_cons hc
    have hflat : ((b :: tb) :: rest).flatten = b :: (tb ++ rest.flatten) := by
      simp
    rw [hflat, ltrimOffset_cons]
    have htake : (b :: (tb ++ rest.flatten)).take (charLength b) = b :: tb := by
      rw [hlen]
      have : b :: (tb ++ rest.flatten) = (b :: tb) ++ rest.flatten := by simp
      rw [this]
      have hl : tb.length + 1 = (b :: tb).length := by simp
      rw [hl, List.take_left]
    have hdrop : (b :: (tb ++ rest.flatten)).drop (charLength b) =
        rest.flatten := by
      rw [hlen]
      have : b :: (tb ++ rest.flatten) = (b :: tb) ++ rest.flatten := by simp
      rw [this]
      have hl : tb.length + 1 = (b :: tb).length := by simp
      rw [hl, List.drop_left]
    rw [htake, hdrop]
    by_cases hmem : (b :: tb) ∈ tsl
    · rw [if_neg (by
        rw [strFind_char_mem hts hc]
        simpa using hmem)]
      rw [List.takeWhile_cons, if_pos (by simpa using hmem)]
      simp only [List.flatten_cons, List.length_append, List.length_cons]
      rw [ih hrest]
      omega
    · rw [if_pos ((strFind_char_mem hts hc).mpr hmem)]
      rw [List.takeWhile_cons, if_neg (by simpa using hmem)]
      rfl

/-! ### Trim: the right scan -/

theorem rtrimEndAux_zero (ts t : List Nat) (resEnd : Nat) :
    rtrimEndAux ts t resEnd 0 =
      if isContB (t.getD 0 0) then resEnd
      else if strFind ts ((t.drop 0).take (resEnd - 0)) 0 = none then resEnd
      else 0 := rfl

theorem rtrimEndAux_succ (ts t : List Nat) (resEnd p : Nat) :
    rtrimEndAux ts t resEnd (p + 1) =
      if isContB (t.getD (p + 1) 0) then rtrimEndAux ts t resEnd p
      else if strFind ts ((t.drop (p + 1)).take (resEnd - (p + 1))) 0 = none
        then resEnd
      else rtrimEndAux ts t (p + 1) p := rfl

/-- The right scan never inspects bytes at or beyond its current result
end, so trailing bytes beyond it are irrelevant. -/
theorem rtrimEndAux_append (ts u extra : List Nat) :
    ∀ pos, pos < u.length → ∀ resEnd, resEnd ≤ u.length →
      rtrimEndAux ts (u ++ extra) resEnd pos = rtrimEndAux ts u resEnd pos := by
  intro pos
  induction pos with
  | zero =>
    intro hpos resEnd hres
    rw [rtrimEndAux_zero, rtrimEndAux_zero, List.getD_append _ _ _ _ hpos]
    simp only [List.drop_zero]
    simp only [List.take_append_of_le_length
      (by omega : resEnd - 0 ≤ u.length)]
  | succ p ih =>
    intro hpos resEnd hres
    rw [rtrimEndAux_succ, rtrimEndAux_succ, List.getD_append _ _ _ _ hpos]
    simp only [List.drop_append_of_le_length
      (by omega : p + 1 ≤ u.length)]
    simp only [List.take_append_of_le_length
      (by
        simp only [List.length_drop]
        omega : resEnd - (p + 1) ≤ (u.drop (p + 1)).length)]
    split_ifs
    · exact ih (by omega) resEnd hres
    · rfl
    · exact ih (by omega) (p + 1) (by omega)

theorem rtrimEnd_ne_nil {ts t : List Nat} (h : t ≠ []) :
    rtrimEnd ts t = rtrimEndAux ts t t.length (t.length - 1) := by
  cases t with
  | nil => exact absurd rfl h
  | cons x xs => rfl

theorem validStr_flatten_eq_nil {ds : List (List Nat)} (h : ValidStr ds)
    (hf : ds.flatten = []) : ds = [] := by
  cases ds with
  | nil => rfl
  | cons c rest =>
    obtain ⟨hc, -⟩ := validStr_cons h
    obtain ⟨b, tb, rfl⟩ := List.exists_cons_of_ne_nil (validChar_ne_nil hc)
    simp at hf

theorem dropWhileRight_append_keep {p : List Nat → Bool} {c : List Nat}
    (l : List (List Nat)) (hc : p c = false) :
    dropWhileRight p (l ++ [c]) = l ++ [c] := by
  unfold dropWhileRight
  rw [List.reverse_append]
  simp [List.dropWhile_cons, hc]

theorem dropWhileRight_append_drop {p : List Nat → Bool} {c : List Nat}
    (l : List (List Nat)) (hc : p c = true) :
    dropWhileRight p (l ++ [c]) = dropWhileRight p l := by
  unfold dropWhileRight
  rw [List.reverse_append]
  simp [List.dropWhile_cons, hc]

/-- Evaluation of the right scan at the lead byte of the last codepoint
when nothing precedes it. -/
theorem rtrimEndAux_lead_nil (ts : List Nat) {b : Nat} (tb : List Nat)
    (hcont : isContB b = false) :
    rtrimEndAux ts (b :: tb) (tb.length + 1) 0 =
      if strFind ts (b :: tb) 0 = none then tb.length + 1 else 0 := by
  rw [rtrimEndAux_zero]
  simp only [List.getD_cons_zero, List.drop_zero, Nat.sub_zero]
  rw [hcont]
  simp only [Bool.false_eq_true, if_false]
  have htk : (b :: tb).take (tb.length + 1) = b :: tb := by
    have hl : tb.length + 1 = (b :: tb).length := by simp
    rw [hl, List.take_length]
  simp only [htk]

/-- Evaluation of the right scan at the lead byte of the last codepoint
when a non-empty region precedes it: a set miss stops the scan, a hit
continues strictly inside the preceding region. -/
theorem rtrimEndAux_lead_cons (ts : List Nat) (x : Nat) (xs : List Nat)
    {b : Nat} (tb : List Nat) (hcont : isContB b = false) :
    rtrimEndAux ts ((x :: xs) ++ (b :: tb))
        (xs.length + 1 + tb.length + 1) (xs.length + 1) =
      if strFind ts (b :: tb) 0 = none then xs.length + 1 + tb.length + 1
      else rtrimEndAux ts (x :: xs) (xs.length + 1) xs.length := by
  rw [rtrimEndAux_succ]
  have hb : ((x :: xs) ++ (b :: tb)).getD (xs.length + 1) 0 = b := by
    rw [List.getD_append_right _ _ _ _ (by simp)]
    simp
  rw [hb, hcont]
  simp only [Bool.false_eq_true, if_false]
  have hdt : (((x :: xs) ++ (b :: tb)).drop (xs.length + 1)).take
      (xs.length + 1 + tb.length + 1 - (xs.length + 1)) = b :: tb := by
    have h1 : xs.length + 1 = (x :: xs).length := by simp
    rw [h1, List.drop_left]
    have h2 : (x :: xs).length + tb.length + 1 - (x :: xs).length =
        tb.length + 1 := by omega
    rw [h2]
    have h3 : tb.length + 1 = (b :: tb).length := by simp
    rw [h3, List.take_length]
  simp only [hdt]
  split_ifs with hf
  · rfl
  · exact rtrimEndAux_append ts (x :: xs) (b :: tb) xs.length (by simp)
      (xs.length + 1) (by simp)

/-- The right scan of the trim engine removes exactly the maximal suffix
of codepoints belonging to the trim set. -/
theorem rtrimEnd_flatten {tsl : List (List Nat)} (hts : ValidStr tsl) :
    ∀ cs, ValidStr cs →
      rtrimEnd tsl.flatten cs.flatten =
        ((dropWhileRight (fun c => decide (c ∈ tsl)) cs).flatten).length := by
  intro cs
  induction cs using List.reverseRecOn with
  | nil => intro _; rfl
  | append_singleton ds c ihds =>
    intro hv
    have hds : ValidStr ds := validStr_append_right hv
    have hc : ValidChar c :=
      hv c (List.mem_append_right ds (List.mem_cons_self c []))
    obtain ⟨b, tb, rfl⟩ := List.exists_cons_of_ne_nil (validChar_ne_nil hc)
    obtain ⟨hlen, hcont, htail⟩ := validChar_cons hc
    have hflat : (ds ++ [b :: tb]).flatten = ds.flatten ++ (b :: tb) := by
      simp
    have htne : (ds ++ [b :: tb]).flatten ≠ [] := by
      rw [hflat]
      simp
    rw [rtrimEnd_ne_nil htne, hflat]
    have hlent : (ds.flatten ++ (b :: tb)).length =
        ds.flatten.length + tb.length + 1 := by
      simp only [List.length_append, List.length_cons]
      omega
    rw [hlent]
    have hpos1 : ds.flatten.length + tb.length + 1 - 1 =
        ds.flatten.length + tb.length := by omega
    rw [hpos1]
    have stepA : ∀ j, j ≤ tb.length →
        rtrimEndAux tsl.flatten (ds.flatten ++ (b :: tb))
            (ds.flatten.length + tb.length + 1) (ds.flatten.length + j) =
          rtrimEndAux tsl.flatten (ds.flatten ++ (b :: tb))
            (ds.flatten.length + tb.length + 1) ds.flatten.length := by
      intro j
      induction j with
      | zero => intro _; rfl
      | succ q ihq =>
        intro hq
        have hshift : ds.flatten.length + (q + 1) =
            (ds.flatten.length + q) + 1 := by omega
        rw [hshift, rtrimEndAux_succ]
        have hbyte : (ds.flatten ++ (b :: tb)).getD
            (ds.flatten.length + q + 1) 0 = tb.getD q 0 := by
          rw [List.getD_append_right _ _ _ _ (by omega)]
          have hidx : ds.flatten.length + q + 1 - ds.flatten.length =
              q + 1 := by omega
          rw [hidx]
          rfl
        rw [hbyte]
        have hqmem : tb.getD q 0 ∈ tb := by
          rw [List.getD_eq_getElem tb 0 (by omega)]
          exact List.getElem_mem (by omega)
        rw [if_pos (htail _ hqmem)]
        exact ihq (by omega)
    rw [stepA tb.length le_rfl]
    cases hu : ds.flatten with
    | nil =>
      have hdsnil : ds = [] := validStr_flatten_eq_nil hds hu
      subst hdsnil
      simp only [List.nil_append, List.length_nil, Nat.zero_add]
      rw [rtrimEndAux_lead_nil tsl.flatten tb hcont]
      by_cases hmem : (b :: tb) ∈ tsl
      · rw [if_neg (by
          rw [strFind_char_mem hts hc]
          simpa using hmem)]
        simp [dropWhileRight, List.dropWhile_cons, hmem]
      · rw [if_pos ((strFind_char_mem hts hc).mpr hmem)]
        simp [dropWhileRight, List.dropWhile_cons, hmem]
    | cons x xs =>
      simp only [List.length_cons]
      rw [rtrimEndAux_lead_cons tsl.flatten x xs tb hcont]
      by_cases hmem : (b :: tb) ∈ tsl
      · rw [if_neg (by
          rw [strFind_char_mem hts hc]
          simpa using hmem)]
        have hxne : (x :: xs) ≠ ([] : List Nat) := by simp
        have hrt : rtrimEnd tsl.flatten (x :: xs) =
            rtrimEndAux tsl.flatten (x :: xs) (xs.length + 1) xs.length := by
          rw [rtrimEnd_ne_nil hxne]
          simp
        rw [← hrt, ← hu, ihds hds,
          dropWhileRight_append_drop ds (by simpa using hmem)]
      · rw [if_pos ((strFind_char_mem hts hc).mpr hmem)]
        rw [dropWhileRight_append_keep ds (by simpa using hmem), hflat, hu]
        simp only [List.length_append, List.length_cons]
        omega

/-! ### The general trim claim -/

theorem flatten_drop_takeWhile (p : List Nat → Bool) (cs : List (List Nat)) :
    cs.flatten.drop ((cs.takeWhile p).flatten.length) =
      (cs.dropWhile p).flatten := by
  have h : cs.flatten = (cs.takeWhile p).flatten ++ (cs.dropWhile p).flatten := by
    rw [← List.flatten_append, List.takeWhile_append_dropWhile]
  rw [h, List.drop_left]

theorem validStr_dropWhile {cs : List (List Nat)} (h : ValidStr cs)
    (p : List Nat → Bool) : ValidStr (cs.dropWhile p) :=
  fun c hc => h c (List.Sublist.mem hc (List.dropWhile_sublist p))

theorem dropWhileRight_append_takeWhile (p : List Nat → Bool)
    (l : List (List Nat)) :
    dropWhileRight p l ++ (l.reverse.takeWhile p).reverse = l := by
  unfold dropWhileRight
  rw [← List.reverse_append, List.takeWhile_append_dropWhile,
    List.reverse_reverse]

theorem flatten_take_dropWhileRight (p : List Nat → Bool)
    (l : List (List Nat)) :
    l.flatten.take ((dropWhileRight p l).flatten).length =
      (dropWhileRight p l).flatten := by
  have h : l.flatten = (dropWhileRight p l).flatten ++
      ((l.reverse.takeWhile p).reverse).flatten := by
    rw [← List.flatten_append, dropWhileRight_append_takeWhile]
  rw [h, List.take_left]

theorem validStr_flatten_ne_nil {tsl : List (List Nat)} (hts : ValidStr tsl)
    (htne : tsl ≠ []) : tsl.flatten ≠ [] := by
  obtain ⟨c0, rest, rfl⟩ := List.exists_cons_of_ne_nil htne
  obtain ⟨hc0, -⟩ := validStr_cons hts
  obtain ⟨b0, tb0, rfl⟩ := List.exists_cons_of_ne_nil (validChar_ne_nil hc0)
  simp

/-- C2: for a non-empty valid trim set and a valid input, the general
trim engine removes exactly the leading (trim, ltrim) and/or trailing
(trim, rtrim) codepoints of the input whose byte sequence coincides with
a codepoint of the trim string, stopping at the first edge codepoint not
in the set.  Membership is decided by byte-sequence search in the trim
string (string_view::find), which by UTF-8 self-synchronization agrees
with codepoint membership. -/
theorem trim_general_spec {tsl cs : List (List Nat)} (hts : ValidStr tsl)
    (hcs : ValidStr cs) (htne : tsl ≠ []) :
    (viewBytes cs.flatten (trimCall true true tsl.flatten cs.flatten) =
        (dropWhileRight (fun c => decide (c ∈ tsl))
          (cs.dropWhile (fun c => decide (c ∈ tsl)))).flatten) ∧
      (viewBytes cs.flatten (trimCall true false tsl.flatten cs.flatten) =
        (cs.dropWhile (fun c => decide (c ∈ tsl))).flatten) ∧
      (viewBytes cs.flatten (trimCall false true tsl.flatten cs.flatten) =
        (dropWhileRight (fun c => decide (c ∈ tsl)) cs).flatten) := by
  by_cases hnil : cs.flatten = []
  · have hcse : cs = [] := validStr_flatten_eq_nil hcs hnil
    subst hcse
    simp [trimCall, viewBytes, dropWhileRight]
  · have htsflat : tsl.flatten ≠ [] := validStr_flatten_ne_nil hts htne
    have hb := ltrimOffset_flatten hts hcs
    have ht := flatten_drop_takeWhile (fun c => decide (c ∈ tsl)) cs
    have he := rtrimEnd_flatten hts (cs.dropWhile (fun c => decide (c ∈ tsl)))
      (validStr_dropWhile hcs _)
    have he2 := rtrimEnd_flatten hts cs hcs
    refine ⟨?_, ?_, ?_⟩
    · simp only [trimCall, if_neg hnil, if_neg htsflat, reduceIte,
        Bool.false_eq_true, if_false]
      simp only [viewBytes, hb, ht, he]
      exact flatten_take_dropWhileRight _ _
    · simp only [trimCall, if_neg hnil, if_neg htsflat, reduceIte,
        Bool.false_eq_true, if_false]
      simp only [viewBytes, hb, ht]
      rw [List.take_length]
    · simp only [trimCall, if_neg hnil, if_neg htsflat, reduceIte,
        Bool.false_eq_true, if_false]
      simp only [viewBytes, List.drop_zero, he2]
      exact flatten_take_dropWhileRight _ _

theorem trim_general_spec_w :
    (viewBytes (List.flatten [[120], [121], [97], [98], [99], [121], [120]])
        (trimCall true true (List.flatten [[120], [121]])
          (List.flatten [[120], [121], [97], [98], [99], [121], [120]])) =
        [97, 98, 99]) ∧
      (viewBytes (List.flatten [[120], [121], [97], [98], [99], [121], [120]])
        (trimCall true false (List.flatten [[120], [121]])
          (List.flatten [[120], [121], [97], [98], [99], [121], [120]])) =
        [97, 98, 99, 121, 120]) ∧
      (viewBytes (List.flatten [[120], [121], [97], [98], [99], [121], [120]])
        (trimCall false true (List.flatten [[120], [121]])
          (List.flatten [[120], [121], [97], [98], [99], [121], [120]])) =
        [120, 121, 97, 98, 99]) := by
  obtain ⟨h1, h2, h3⟩ := @trim_general_spec [[120], [121]]
    [[120], [121], [97], [98], [99], [121], [120]]
    (by decide) (by decide) (by decide)
  exact ⟨h1.trans (by decide), h2.trans (by decide), h3.trans (by decide)⟩

/-! ### The ASCII fast path of trim -/

theorem findFirstNotOf_lt {s set : List Nat} {i : Nat}
    (h : findFirstNotOf s set = some i) : i < s.length := by
  induction s generalizing i with
  | nil => simp [findFirstNotOf] at h
  | cons b rest ih =>
    unfold findFirstNotOf at h
    split_ifs at h with hb
    · cases hf : findFirstNotOf rest set with
      | none => rw [hf] at h; simp at h
      | some j =>
        rw [hf] at h
        simp only [Option.map_some'] at h
        injection h with h
        subst h
        have := ih hf
        simp only [List.length_cons]
        omega
    · injection h with h
      subst h
      simp only [List.length_cons]
      omega

/-- On ASCII input the left scan of the general path computes exactly
find_first_not_of (with the byte length as the all-trimmed default). -/
theorem ltrimOffset_ascii {src : List Nat} (hA : AsciiBytes src)
    (ts : List Nat) :
    ltrimOffset ts src = (findFirstNotOf src ts).getD src.length := by
  induction src with
  | nil => rfl
  | cons b rest ih =>
    obtain ⟨hb, hrest⟩ := asciiBytes_cons hA
    rw [ltrimOffset_cons, charLength_ascii hb]
    have htk : (b :: rest).take 1 = [b] := rfl
    have hdr : (b :: rest).drop 1 = rest := rfl
    rw [htk, hdr]
    unfold findFirstNotOf
    by_cases hbm : b ∈ ts
    · rw [if_neg (by
        rw [strFind_single_none_iff]
        simpa using hbm)]
      rw [if_pos hbm, ih hrest]
      cases hf : findFirstNotOf rest ts with
      | none =>
        simp only [Option.map_none', Option.getD_none, List.length_cons]
        omega
      | some j =>
        simp only [Option.map_some', Option.getD_some]
        omega
    · rw [if_pos ((strFind_single_none_iff ts b).mpr hbm), if_neg hbm]
      rfl

theorem findFirstNotOf_cons (b : Nat) (rest set : List Nat) :
    findFirstNotOf (b :: rest) set =
      if b ∈ set then (findFirstNotOf rest set).map (· + 1) else some 0 := rfl

theorem findLastNotOf_append_notin (u : List Nat) {x : Nat} {ts : List Nat}
    (hx : x ∉ ts) : findLastNotOf (u ++ [x]) ts = some u.length := by
  unfold findLastNotOf
  have hrev : (u ++ [x]).reverse = x :: u.reverse := by simp
  rw [hrev, findFirstNotOf_cons, if_neg hx]
  simp

theorem findLastNotOf_append_in (u : List Nat) {x : Nat} {ts : List Nat}
    (hx : x ∈ ts) : findLastNotOf (u ++ [x]) ts = findLastNotOf u ts := by
  unfold findLastNotOf
  have hrev : (u ++ [x]).reverse = x :: u.reverse := by simp
  rw [hrev, findFirstNotOf_cons, if_pos hx]
  cases hf : findFirstNotOf u.reverse ts with
  | none => simp [hf]
  | some j =>
    simp only [hf, Option.map_some']
    congr 1
    simp only [List.length_append, List.length_cons, List.length_nil]
    omega

/-- On ASCII input the right scan of the general path computes exactly
find_last_not_of (plus one), with 0 as the all-trimmed default. -/
theorem rtrimEnd_ascii (ts : List Nat) :
    ∀ t, AsciiBytes t →
      rtrimEnd ts t = ((findLastNotOf t ts).map (· + 1)).getD 0 := by
  intro t
  induction t using List.reverseRecOn with
  | nil => intro _; rfl
  | append_singleton u x ihu =>
    intro hA
    have hx : x < 128 := hA x (by simp)
    have hAu : AsciiBytes u := fun b hb => hA b (by simp [hb])
    have hcx : isContB x = false := by
      simp only [isContB, Bool.and_eq_false_iff, decide_eq_false_iff_not,
        not_le, not_lt]
      left
      exact hx
    cases u with
    | nil =>
      simp only [List.nil_append]
      rw [rtrimEnd_ne_nil (by simp)]
      have hl1 : ([x] : List Nat).length = 1 := rfl
      rw [hl1]
      have hp0 : (1 : Nat) - 1 = 0 := rfl
      rw [hp0, rtrimEndAux_zero]
      have hbx : ([x] : List Nat).getD 0 0 = x := rfl
      rw [hbx, hcx]
      simp only [Bool.false_eq_true, if_false]
      have htake : (([x] : List Nat).drop 0).take (1 - 0) = [x] := rfl
      simp only [htake]
      by_cases hxm : x ∈ ts
      · rw [if_neg (by
          rw [strFind_single_none_iff]
          simpa using hxm)]
        have := findLastNotOf_append_in ([] : List Nat) hxm
        simp only [List.nil_append] at this
        rw [this]
        rfl
      · rw [if_pos ((strFind_single_none_iff ts x).mpr hxm)]
        have := findLastNotOf_append_notin ([] : List Nat) hxm
        simp only [List.nil_append] at this
        rw [this]
        rfl
    | cons y ys =>
      rw [rtrimEnd_ne_nil (by simp)]
      have hl : ((y :: ys) ++ [x]).length = ys.length + 1 + 1 := by simp
      rw [hl]
      have hp : ys.length + 1 + 1 - 1 = ys.length + 1 := rfl
      rw [hp]
      have hlead := rtrimEndAux_lead_cons ts y ys ([] : List Nat) hcx
      simp only [List.length_nil, Nat.add_zero] at hlead
      rw [hlead]
      by_cases hxm : x ∈ ts
      · rw [if_neg (by
          rw [strFind_single_none_iff]
          simpa using hxm)]
        have hrt : rtrimEnd ts (y :: ys) =
            rtrimEndAux ts (y :: ys) (ys.length + 1) ys.length := by
          rw [rtrimEnd_ne_nil (by simp)]
          simp
        rw [← hrt, ihu hAu, findLastNotOf_append_in (y :: ys) hxm]
      · rw [if_pos ((strFind_single_none_iff ts x).mpr hxm),
          findLastNotOf_append_notin (y :: ys) hxm]
        simp only [Option.map_some', Option.getD_some, List.length_cons]

/-- On ASCII-only source input the two entry points of the general trim
form return the same string, for any trim set and any of the
leftTrim/rightTrim instantiations. -/
theorem trim_paths_agree {s : List Nat} (hA : AsciiBytes s) (ts : List Nat)
    (lt rt : Bool) :
    viewBytes s (trimCallAscii lt rt ts s) =
      viewBytes s (trimCall lt rt ts s) := by
  by_cases hs : s = []
  · subst hs
    simp [trimCallAscii, trimCall]
  by_cases hts : ts = []
  · subst hts
    simp [trimCallAscii, trimCall, hs]
  simp only [trimCallAscii, trimCall, if_neg hs, if_neg hts]
  cases lt with
  | false =>
    simp only [Bool.false_eq_true, if_false]
    cases rt with
    | false =>
      simp only [Bool.false_eq_true, if_false, viewBytes]
      simp [List.length_drop]
    | true =>
      simp only [reduceIte]
      have htk : (s.drop 0).take (s.length - 0) = s := by
        simp [List.take_length]
      rw [htk]
      rw [rtrimEnd_ascii ts (s.drop 0) (asciiBytes_drop hA 0)]
      rw [List.drop_zero]
      cases hfl : findLastNotOf s ts with
      | none => simp [viewBytes]
      | some j => simp [viewBytes]
  | true =>
    simp only [reduceIte]
    rw [ltrimOffset_ascii hA ts]
    cases hff : findFirstNotOf s ts with
    | none =>
      simp only [Option.getD_none]
      cases rt with
      | false =>
        simp only [Bool.false_eq_true, if_false, viewBytes]
        simp [List.length_drop]
      | true =>
        simp only [reduceIte, viewBytes]
        have hd : s.drop s.length = [] := by simp
        rw [hd]
        simp [rtrimEnd]
    | some st =>
      simp only [Option.getD_some]
      cases rt with
      | false =>
        simp only [Bool.false_eq_true, if_false, viewBytes]
        simp [List.length_drop]
      | true =>
        simp only [reduceIte]
        have htk : (s.drop st).take (s.length - st) = s.drop st := by
          have : s.length - st = (s.drop st).length := by
            simp [List.length_drop]
          rw [this, List.take_length]
        rw [htk]
        rw [rtrimEnd_ascii ts (s.drop st) (asciiBytes_drop hA st)]
        cases hfl : findLastNotOf (s.drop st) ts with
        | none => simp [viewBytes]
        | some j => simp [viewBytes]

/-- C4: for every input consisting only of single-byte (ASCII)
codepoints, the ASCII-specialized and general UTF-8 entry points of
substr return identical results for all argument values, and likewise
the two entry points of the general-form trim/ltrim/rtrim (all
leftTrim/rightTrim instantiations, any trim string). -/
theorem ascii_paths_agree {s : List Nat} (hA : AsciiBytes s) :
    (∀ start length : Int,
      viewBytes s (substrCallAscii s start length) =
        viewBytes s (substrCall s start length)) ∧
      ∀ (ts : List Nat) (lt rt : Bool),
        viewBytes s (trimCallAscii lt rt ts s) =
          viewBytes s (trimCall lt rt ts s) := by
  constructor
  · intro start length
    rw [substrCallAscii, substrCall, substr_paths_agree hA]
  · intro ts lt rt
    exact trim_paths_agree hA ts lt rt

theorem ascii_paths_agree_w :
    (viewBytes [32, 104, 105, 32] (substrCallAscii [32, 104, 105, 32] (-3) 2) =
        viewBytes [32, 104, 105, 32] (substrCall [32, 104, 105, 32] (-3) 2)) ∧
      viewBytes [32, 104, 105, 32]
          (trimCallAscii true true [32] [32, 104, 105, 32]) =
        viewBytes [32, 104, 105, 32]
          (trimCall true true [32] [32, 104, 105, 32]) := by
  obtain ⟨h1, h2⟩ := @ascii_paths_agree [32, 104, 105, 32] (by decide)
  exact ⟨h1 (-3) 2, h2 [32] true true⟩

/-! ### Bytewise predicates (C9) and view invariants (C8) -/

/-- C9: contains, startsWith and endsWith all return true for the empty
pattern, on every string including the empty one. -/
theorem empty_pattern_true (str : List Nat) :
    containsCall str [] = true ∧ startsWithCall str [] = true ∧
      endsWithCall str [] = true := by
  refine ⟨?_, ?_, ?_⟩
  · unfold containsCall
    rw [strFind_empty_le (Nat.zero_le _)]
    rfl
  · unfold startsWithCall
    rw [if_neg (by simp)]
    simp
  · unfold endsWithCall
    rw [if_neg (by simp)]
    simp

theorem view_decomp (s : List Nat) (v : Nat × Nat) :
    s = s.take v.1 ++ viewBytes s v ++ s.drop (v.1 + v.2) := by
  unfold viewBytes
  rw [List.append_assoc]
  have h1 : (s.drop v.1).take v.2 ++ s.drop (v.1 + v.2) = s.drop v.1 := by
    rw [← List.drop_drop, List.take_append_drop]
  rw [h1, List.take_append_drop]

theorem getByteRangeUnicode_le (bs : List Nat) (st ln : Nat) :
    (getByteRangeUnicode bs st ln).1 ≤ (getByteRangeUnicode bs st ln).2 ∧
      (getByteRangeUnicode bs st ln).2 ≤ bs.length := by
  unfold getByteRangeUnicode
  dsimp only
  constructor
  · exact Nat.le_add_right _ _
  · have h1 := advanceChars_le bs (st - 1)
    have h2 := advanceChars_le (bs.drop (advanceChars bs (st - 1))) ln
    simp only [List.length_drop] at h2
    omega

theorem rtrimEndAux_le (ts t : List Nat) :
    ∀ pos resEnd, rtrimEndAux ts t resEnd pos ≤ max resEnd (pos + 1) := by
  intro pos
  induction pos with
  | zero =>
    intro resEnd
    rw [rtrimEndAux_zero]
    split_ifs <;> omega
  | succ p ih =>
    intro resEnd
    rw [rtrimEndAux_succ]
    split_ifs
    · have := ih resEnd
      omega
    · omega
    · have := ih (p + 1)
      omega

theorem rtrimEnd_le (ts t : List Nat) : rtrimEnd ts t ≤ t.length := by
  cases t with
  | nil => simp [rtrimEnd]
  | cons x xs =>
    rw [rtrimEnd_ne_nil (by simp)]
    have := rtrimEndAux_le ts (x :: xs) ((x :: xs).length - 1) ((x :: xs).length)
    simp only [List.length_cons] at this ⊢
    omega

theorem ltrimOffset_le_flatten {tsl cs : List (List Nat)} (hts : ValidStr tsl)
    (hcs : ValidStr cs) :
    ltrimOffset tsl.flatten cs.flatten ≤ cs.flatten.length := by
  rw [ltrimOffset_flatten hts hcs]
  have h : cs.flatten = (cs.takeWhile (fun c => decide (c ∈ tsl))).flatten ++
      (cs.dropWhile (fun c => decide (c ∈ tsl))).flatten := by
    rw [← List.flatten_append, List.takeWhile_append_dropWhile]
  rw [h, List.length_append]
  omega

theorem findLastNotOf_lt {l set : List Nat} {j : Nat}
    (h : findLastNotOf l set = some j) : j < l.length := by
  unfold findLastNotOf at h
  cases hf : findFirstNotOf l.reverse set with
  | none => rw [hf] at h; simp at h
  | some j' =>
    rw [hf] at h
    simp only [Option.map_some'] at h
    injection h with h
    subst h
    have := findFirstNotOf_lt hf
    simp only [List.length_reverse] at this
    omega

theorem substringIndexForward_some_fit {s d : List Nat} :
    ∀ r pos i, substringIndexForward s d (r + 1) pos = some i →
      i + d.length ≤ s.length := by
  intro r
  induction r with
  | zero =>
    intro pos i h
    rw [substringIndexForward_succ] at h
    cases hf : strFind s d pos with
    | none => rw [hf] at h; exact absurd h (by simp)
    | some j =>
      rw [hf] at h
      simp only [if_pos rfl] at h
      injection h with h
      subst h
      exact (strFind_some hf).2.1
  | succ m ih =>
    intro pos i h
    rw [substringIndexForward_succ] at h
    cases hf : strFind s d pos with
    | none => rw [hf] at h; exact absurd h (by simp)
    | some j =>
      rw [hf] at h
      simp only [Nat.succ_ne_zero, if_false] at h
      exact ih (j + 1) i h

theorem substringIndexBackward_succ (s d : List Nat) (r index : Nat) :
    substringIndexBackward s d (r + 1) index =
      match strRfind s d index with
      | none => none
      | some i => if r = 0 then some i
        else substringIndexBackward s d r (sizeDec i) := rfl

theorem substringIndexBackward_some_fit {s d : List Nat} :
    ∀ r pos i, substringIndexBackward s d (r + 1) pos = some i →
      i + d.length ≤ s.length := by
  intro r
  induction r with
  | zero =>
    intro pos i h
    rw [substringIndexBackward_succ] at h
    cases hf : strRfind s d pos with
    | none => rw [hf] at h; exact absurd h (by simp)
    | some j =>
      rw [hf] at h
      simp only [if_pos rfl] at h
      injection h with h
      subst h
      exact (strRfind_some hf).2.1
  | succ m ih =>
    intro pos i h
    rw [substringIndexBackward_succ] at h
    cases hf : strRfind s d pos with
    | none => rw [hf] at h; exact absurd h (by simp)
    | some j =>
      rw [hf] at h
      simp only [Nat.succ_ne_zero, if_false] at h
      exact ih (sizeDec j) i h

/-- C8: every view returned by substr (both paths), trim/ltrim/rtrim
(both paths; the general path on valid UTF-8 input), and substring_index
satisfies 0 <= offset and offset + length <= input length, and its bytes
are a contiguous byte sub-range of the input (the input splits around
them), so the result aliases the input with no new allocation. -/
theorem result_views_ok :
    (∀ (isA : Bool) (s : List Nat) (start length : Int),
      viewOk s (substrDoCall isA s start length)) ∧
      (∀ (lt rt : Bool) (ts s : List Nat),
        viewOk s (trimCallAscii lt rt ts s)) ∧
      (∀ (lt rt : Bool) (tsl cs : List (List Nat)), ValidStr tsl →
        ValidStr cs →
          viewOk cs.flatten (trimCall lt rt tsl.flatten cs.flatten)) ∧
      (∀ (s d : List Nat) (count : Int),
        viewOk s (substringIndexCall s d count)) := by
  refine ⟨?_, ?_, ?_, ?_⟩
  · intro isA s start length
    refine ⟨?_, view_decomp _ _⟩
    rw [substrDoCall_eq_indices]
    cases isA with
    | true =>
      rw [if_pos rfl]
      cases hI : substrIndices (s.length : Int) start length with
      | none => simp
      | some pr =>
        obtain ⟨st, ln⟩ := pr
        obtain ⟨hst, hln, hle⟩ := substrIndices_some hI
        dsimp only
        rw [if_pos rfl]
        dsimp only
        omega
    | false =>
      rw [if_neg Bool.false_ne_true]
      cases hI : substrIndices ((lengthUnicode s : Nat) : Int) start length with
      | none => simp
      | some pr =>
        obtain ⟨st, ln⟩ := pr
        dsimp only
        rw [if_neg Bool.false_ne_true]
        obtain ⟨hg1, hg2⟩ := getByteRangeUnicode_le s st ln
        dsimp only
        omega
  · intro lt rt ts s
    refine ⟨?_, view_decomp _ _⟩
    by_cases h1 : s = []
    · simp [trimCallAscii, h1]
    by_cases h2 : ts = []
    · simp [trimCallAscii, h2, h1]
    unfold trimCallAscii
    rw [if_neg h1, if_neg h2]
    cases hst : (if lt then findFirstNotOf s ts else some 0) with
    | none => simp
    | some st =>
      have hstle : st ≤ s.length := by
        cases lt with
        | false =>
          simp only [Bool.false_eq_true, if_false, Option.some.injEq] at hst
          omega
        | true =>
          rw [if_pos rfl] at hst
          exact le_of_lt (findFirstNotOf_lt hst)
      dsimp only
      cases rt with
      | false =>
        simp only [Bool.false_eq_true, if_false]
        omega
      | true =>
        rw [if_pos rfl]
        cases hfl : findLastNotOf ((s.drop st).take (s.length - st)) ts with
        | none => simp
        | some j =>
          have hj := findLastNotOf_lt hfl
          simp only [List.length_take, List.length_drop] at hj
          dsimp only
          omega
  · intro lt rt tsl cs hts hcs
    refine ⟨?_, view_decomp _ _⟩
    by_cases h1 : cs.flatten = []
    · simp [trimCall, h1]
    by_cases h2 : tsl.flatten = []
    · simp [trimCall, h2, h1]
    unfold trimCall
    rw [if_neg h1, if_neg h2]
    dsimp only
    have hb : (if lt then ltrimOffset tsl.flatten cs.flatten else 0) ≤
        cs.flatten.length := by
      cases lt with
      | false => simp
      | true =>
        rw [if_pos rfl]
        exact ltrimOffset_le_flatten hts hcs
    cases rt with
    | false =>
      simp only [Bool.false_eq_true, if_false]
      simp only [List.length_drop]
      omega
    | true =>
      rw [if_pos rfl]
      have he := rtrimEnd_le tsl.flatten
        (cs.flatten.drop (if lt then ltrimOffset tsl.flatten cs.flatten
          else 0))
      simp only [List.length_drop] at he
      omega
  · intro s d count
    refine ⟨?_, view_decomp _ _⟩
    unfold substringIndexCall
    split_ifs with h1 h2
    · simp
    · obtain ⟨k, hk⟩ : ∃ k, count.toNat = k + 1 :=
        ⟨count.toNat - 1, by omega⟩
      rw [hk]
      cases hf : substringIndexForward s d (k + 1) 0 with
      | none => simp
      | some i =>
        have := substringIndexForward_some_fit k 0 i hf
        dsimp only
        omega
    · obtain ⟨k, hk⟩ : ∃ k, (-count).toNat = k + 1 :=
        ⟨(-count).toNat - 1, by omega⟩
      rw [hk]
      cases hf : substringIndexBackward s d (k + 1) (sizeDec s.length) with
      | none => simp
      | some i =>
        have := substringIndexBackward_some_fit k _ i hf
        dsimp only
        omega

theorem result_views_ok_w :
    viewOk [104, 105] (substrDoCall false [104, 105] 1 1) ∧
      viewOk [104, 105] (trimCallAscii true true [32] [104, 105]) ∧
      viewOk (List.flatten [[104]])
        (trimCall true true (List.flatten [[32]]) (List.flatten [[104]])) ∧
      viewOk [97, 46, 98] (substringIndexCall [97, 46, 98] [46] 1) := by
  obtain ⟨h1, h2, h3, h4⟩ := result_views_ok
  exact ⟨h1 false [104, 105] 1 1, h2 true true [32] [104, 105],
    h3 true true [[32]] [[104]] (by decide) (by decide),
    h4 [97, 46, 98] [46] 1⟩
